import Mathlib

/-!
Shallow embedding of `monkey_island_font_editor.py` — the indexed-bitmap
edit/round-trip model of the Monkey Island bitmap font editor.

The embedded parts are the `PixelEditorCanvas` state and its operations
(`load_image`, `draw_pixel`, `save_image`, `set_zoom`, `set_color`, the mouse
event handlers) together with the `adjust_zoom` helper of the main window.
Qt painting, dialogs, thumbnails and all other presentation-only code are out
of scope.  Machine bytes are modelled as `Nat`, Python ints (pointer
coordinates, zoom deltas) as `Int`, Python floor division `//` as `Int.fdiv`,
and fallible operations as `Option`.
-/

namespace MIFont

/-- Pixel storage of a `QImage` in `Format_Indexed8`: a width × height grid of
palette indices, addressed as `pix x y`. -/
structure QImageM where
  width : Nat
  height : Nat
  pix : Nat → Nat → Nat

/-- Qt `QImage.setPixel(x, y, v)`: overwrite the single cell `(x, y)` with the
index value `v`. -/
def QImageM.setPixel (q : QImageM) (x y v : Nat) : QImageM :=
  { q with pix := fun a b => if a = x ∧ b = y then v else q.pix a b }

/-- The image mode of a PIL image: palette-indexed (`'P'`) or anything else
(the code only ever tests `mode == 'P'`). -/
inductive PILMode
  | P
  | other
deriving DecidableEq

/-- A PIL image as the code observes it: mode, size, `getpalette()` bytes
(flattened RGB triplets) and `tobytes()` pixel bytes (row-major, one byte per
pixel). -/
structure PILImage where
  mode : PILMode
  width : Nat
  height : Nat
  palette : List Nat
  data : List Nat

/-- Modelled from the spec: PIL `convert('P')` coerces a non-indexed source
"to the nearest indexed representation (lossy if the source had more colors
than the palette can hold)".  The quantised byte values are produced by the
external imaging library; no claim depends on them, so the model keeps the
byte array and the size and changes only the mode. -/
def PILImage.convertP (img : PILImage) : PILImage :=
  { img with mode := PILMode.P }

/-- The state of `PixelEditorCanvas` (presentation-only fields such as
`grid_enabled` and `show_char_indices` are omitted). -/
structure CanvasState where
  image : Option QImageM
  original_palette : Option (List Nat)
  zoom_level : Int
  current_color_index : Nat
  drawing : Bool
  char_height : Nat
  hover_y : Int

/-- Constructor `PixelEditorCanvas.__init__`: no image, no palette, zoom 20, colour
index 1, not drawing, character height 8, hover −1. -/
def initState : CanvasState :=
  { image := none
    original_palette := none
    zoom_level := 20
    current_color_index := 1
    drawing := false
    char_height := 8
    hover_y := -1 }

/-- The character-height auto-detection of `load_image` (lines 60–73):
heights 2048, 2259, 3390, 3584 map to 8, 9, 15, 14; otherwise
`height // 256`, replaced by 8 when that quotient is `< 1`. -/
def charHeightFor (height : Nat) : Nat :=
  if height = 2048 then 8
  else if height = 2259 then 9
  else if height = 3390 then 15
  else if height = 3584 then 14
  else
    let ch := height / 256
    if ch < 1 then 8 else ch

/-- Glyph count as computed at `paintEvent` line 143 and `load_character`
line 448: `image.height() // char_height` with the inferred height. -/
def numCharsFor (height : Nat) : Nat :=
  height / charHeightFor height

/-- The inner pixel-copy loop of `load_image` (lines 89–92) for one row `y`:
for `x in range(width)`, set pixel `(x, y)` from `data[y*width+x]` when that
index is within the byte string. -/
def copyRow (data : List Nat) (width y : Nat) (q : QImageM) : QImageM :=
  (List.range width).foldl
    (fun q x =>
      if y * width + x < data.length then
        q.setPixel x y (data.getD (y * width + x) 0)
      else q)
    q

/-- The outer pixel-copy loop of `load_image` (lines 88–92): rows
`y in range(height)`. -/
def copyPixels (data : List Nat) (width height : Nat) (q : QImageM) : QImageM :=
  (List.range height).foldl (fun q y => copyRow data width y q) q

/-- Method `PixelEditorCanvas.load_image` (lines 44–95).  The palette is captured
from the source only when its mode is `'P'`; a non-`'P'` source is converted
with `convert('P')` first; the character height is auto-detected from the
total height; pixel bytes are copied into a fresh `QImage` (whose memory the
model initialises to 0 — the code leaves it uninitialised, and the copy loop
overwrites every cell whenever the byte string covers the image).  The
`setColor` palette-display loop (lines 78–84) affects only Qt rendering
colours, never pixel indices, and is omitted. -/
def loadImage (s : CanvasState) (pil0 : PILImage) : CanvasState :=
  let pal := if pil0.mode = PILMode.P then some pil0.palette else s.original_palette
  let pil := if pil0.mode ≠ PILMode.P then pil0.convertP else pil0
  let q0 : QImageM := { width := pil.width, height := pil.height, pix := fun _ _ => 0 }
  let q := copyPixels pil.data pil.width pil.height q0
  { s with
    image := some q
    original_palette := pal
    char_height := charHeightFor pil.height }

/-- The pointer-to-cell mapping of `draw_pixel` (lines 204–205):
`x = pos.x() // zoom`, `y = pos.y() // zoom` with Python floor division. -/
def pointerToCell (pos : Int × Int) (zoom : Int) : Int × Int :=
  (pos.1.fdiv zoom, pos.2.fdiv zoom)

/-- Method `PixelEditorCanvas.draw_pixel` (lines 199–210): no-op without an image;
otherwise map the pointer to a cell and, when `0 <= x < width` and
`0 <= y < height`, overwrite that cell with the current colour index and emit
`pixelChanged(x, y, color_index)`.  The second component collects the emitted
signals. -/
def drawPixel (s : CanvasState) (pos : Int × Int) :
    CanvasState × List (Int × Int × Nat) :=
  match s.image with
  | none => (s, [])
  | some q =>
    let x := (pointerToCell pos s.zoom_level).1
    let y := (pointerToCell pos s.zoom_level).2
    if 0 ≤ x ∧ x < (q.width : Int) ∧ 0 ≤ y ∧ y < (q.height : Int) then
      ({ s with image := some (q.setPixel x.toNat y.toNat s.current_color_index) },
       [(x, y, s.current_color_index)])
    else
      (s, [])

/-- Handler `PixelEditorCanvas.mousePressEvent` (lines 175–179) for a left-button
press: when an image is loaded, set `drawing` and paint the pressed cell. -/
def mousePressEvent (s : CanvasState) (pos : Int × Int) :
    CanvasState × List (Int × Int × Nat) :=
  match s.image with
  | none => (s, [])
  | some _ => drawPixel { s with drawing := true } pos

/-- Handler `PixelEditorCanvas.mouseMoveEvent` (lines 181–192): when an image is
loaded, update the hover row, and when a stroke is active paint the cell under
the pointer (the repaint on hover change is presentation-only). -/
def mouseMoveEvent (s : CanvasState) (pos : Int × Int) :
    CanvasState × List (Int × Int × Nat) :=
  match s.image with
  | none => (s, [])
  | some _ =>
    let s1 := { s with hover_y := pos.2.fdiv s.zoom_level }
    if s1.drawing then drawPixel s1 pos else (s1, [])

/-- Handler `PixelEditorCanvas.mouseReleaseEvent` (lines 194–197) for the left
button: end the stroke. -/
def mouseReleaseEvent (s : CanvasState) : CanvasState :=
  { s with drawing := false }

/-- Method `PixelEditorCanvas.set_zoom` (lines 212–216): store the zoom level (the
size/update calls are presentation-only). -/
def set_zoom (s : CanvasState) (z : Int) : CanvasState :=
  { s with zoom_level := z }

/-- Method `PixelEditorCanvas.set_color` (lines 218–220). -/
def set_color (s : CanvasState) (c : Nat) : CanvasState :=
  { s with current_color_index := c }

/-- Method `MonkeyIslandFontEditor.adjust_zoom` (lines 482–485):
`max(5, min(50, zoom_level + delta))`, then `set_zoom`. -/
def adjust_zoom (s : CanvasState) (delta : Int) : CanvasState :=
  set_zoom s (max 5 (min 50 (s.zoom_level + delta)))

/-- Python truthiness of the `self.original_palette` attribute as tested at
line 229: `None` and the empty list are falsy. -/
def palTruthy : Option (List Nat) → Bool
  | none => false
  | some l => !l.isEmpty

/-- The row-major pixel readback loop of `save_image` (lines 241–244):
`for y: for x: pixels.append(pixelIndex(x, y))`. -/
def savePixelsList (q : QImageM) : List Nat :=
  (List.range q.height).foldl
    (fun acc y => (List.range q.width).foldl (fun acc x => acc ++ [q.pix x y]) acc)
    []

/-- Method `PixelEditorCanvas.save_image` (lines 227–248): `False` (here `none`) when
no image is held or the palette attribute is falsy; otherwise the written
file's palette is exactly `original_palette` (`putpalette`) and its pixel
array is the row-major readback of the grid (`putdata`).  The successful
result is the `(palette bytes, pixel bytes)` pair of the output file. -/
def saveImage (s : CanvasState) : Option (List Nat × List Nat) :=
  match s.image, s.original_palette with
  | some q, some pal =>
    if pal.isEmpty then none
    else some (pal, savePixelsList q)
  | some _, none => none
  | none, _ => none

/-- A sequence of paint operations applied to the canvas, discarding the
emitted signals (`draw_pixel` at each position in turn). -/
def applyPaints (s : CanvasState) (ps : List (Int × Int)) : CanvasState :=
  ps.foldl (fun s p => (drawPixel s p).1) s

/-- Pixel-index readback of the canvas, 0 when no image is loaded. -/
def pixAt (s : CanvasState) (a b : Nat) : Nat :=
  match s.image with
  | none => 0
  | some q => q.pix a b

/-- A pointer cell lies inside the image bounds, exactly the test of
`draw_pixel` line 207. -/
def inBoundsCell (q : QImageM) (c : Int × Int) : Prop :=
  0 ≤ c.1 ∧ c.1 < (q.width : Int) ∧ 0 ≤ c.2 ∧ c.2 < (q.height : Int)

instance (q : QImageM) (c : Int × Int) : Decidable (inBoundsCell q c) := by
  unfold inBoundsCell; infer_instance

/-- A concrete 2×2 palette-indexed source file used by witnesses. -/
def demoImg : PILImage :=
  { mode := PILMode.P, width := 2, height := 2, palette := [1, 2, 3], data := [9, 8, 7, 6] }

/-- A concrete 2×2 non-indexed (RGB-like) source file used by witnesses. -/
def demoRGB : PILImage :=
  { mode := PILMode.other, width := 2, height := 2, palette := [], data := [5, 5, 5, 5] }

/-- A concrete blank 4×4 grid used by witnesses. -/
def demoQ : QImageM :=
  { width := 4, height := 4, pix := fun _ _ => 0 }

/-- A concrete canvas state holding `demoQ` with a captured palette, zoom 20,
colour index 1, used by witnesses. -/
def demoS : CanvasState :=
  { image := some demoQ
    original_palette := some [1, 2, 3]
    zoom_level := 20
    current_color_index := 1
    drawing := false
    char_height := 8
    hover_y := -1 }

end MIFont

namespace MIFont

/-! Supporting lemmas. -/

theorem setPixel_pix_ne (q : QImageM) (x y v a b : Nat) (h : ¬(a = x ∧ b = y)) :
    (q.setPixel x y v).pix a b = q.pix a b := by
  simp [QImageM.setPixel, h]

theorem setPixel_pix_self (q : QImageM) (x y v : Nat) :
    (q.setPixel x y v).pix x y = v := by
  simp [QImageM.setPixel]

theorem drawPixel_fst_palette (s : CanvasState) (p : Int × Int) :
    ((drawPixel s p).1).original_palette = s.original_palette := by
  obtain ⟨img, pal, z, c, d, ch, hv⟩ := s
  cases img
  · rfl
  · simp only [drawPixel]
    split
    · rfl
    · rfl

theorem drawPixel_fst_isSome (s : CanvasState) (p : Int × Int) :
    s.image.isSome = true → ((drawPixel s p).1).image.isSome = true := by
  obtain ⟨img, pal, z, c, d, ch, hv⟩ := s
  cases img
  · intro h; exact h
  · intro _
    simp only [drawPixel]
    split
    · rfl
    · rfl

theorem applyPaints_palette (ps : List (Int × Int)) (s : CanvasState) :
    (applyPaints s ps).original_palette = s.original_palette := by
  induction ps generalizing s with
  | nil => rfl
  | cons p rest ih =>
    simp only [applyPaints, List.foldl_cons]
    exact (ih ((drawPixel s p).1)).trans (drawPixel_fst_palette s p)

theorem applyPaints_isSome (ps : List (Int × Int)) (s : CanvasState)
    (h : s.image.isSome = true) : (applyPaints s ps).image.isSome = true := by
  induction ps generalizing s with
  | nil => exact h
  | cons p rest ih =>
    simp only [applyPaints, List.foldl_cons]
    exact ih ((drawPixel s p).1) (drawPixel_fst_isSome s p h)

theorem saveImage_none_of_palette_none (s : CanvasState)
    (h : s.original_palette = none) : saveImage s = none := by
  obtain ⟨img, pal, z, c, d, ch, hv⟩ := s
  cases h
  cases img
  · rfl
  · rfl

theorem saveImage_eq_of (s : CanvasState) (q : QImageM) (pal : List Nat)
    (hq : s.image = some q) (hp : s.original_palette = some pal) (h : pal ≠ []) :
    saveImage s = some (pal, savePixelsList q) := by
  obtain ⟨img, pal0, z, c, d, ch, hv⟩ := s
  cases hq
  cases hp
  simp only [saveImage]
  rw [if_neg (by simp [h])]

theorem copyRow_foldl_pix_not_mem (data : List Nat) (w y : Nat) (xs : List Nat)
    (q : QImageM) (a b : Nat) (h : a ∉ xs ∨ b ≠ y) :
    (xs.foldl (fun q x =>
      if y * w + x < data.length then q.setPixel x y (data.getD (y * w + x) 0) else q) q).pix a b
      = q.pix a b := by
  induction xs generalizing q with
  | nil => rfl
  | cons x rest ih =>
    rw [List.foldl_cons]
    rw [ih _ (h.imp (fun hn hm => hn (List.mem_cons_of_mem _ hm)) id)]
    split
    · refine setPixel_pix_ne _ _ _ _ _ _ ?_
      rintro ⟨rfl, rfl⟩
      rcases h with hn | hn
      · exact hn (List.mem_cons_self _ _)
      · exact hn rfl
    · rfl

theorem copyRow_foldl_pix_mem (data : List Nat) (w y : Nat) (xs : List Nat)
    (q : QImageM) (a : Nat) (ha : a ∈ xs) (hnd : xs.Nodup) :
    (xs.foldl (fun q x =>
      if y * w + x < data.length then q.setPixel x y (data.getD (y * w + x) 0) else q) q).pix a y
      = if y * w + a < data.length then data.getD (y * w + a) 0 else q.pix a y := by
  induction xs generalizing q with
  | nil => cases ha
  | cons x rest ih =>
    rw [List.foldl_cons]
    rcases List.mem_cons.mp ha with h | hmem
    · subst h
      rw [copyRow_foldl_pix_not_mem data w y rest _ a y
        (Or.inl (List.nodup_cons.mp hnd).1)]
      by_cases hidx : y * w + a < data.length
      · rw [if_pos hidx, if_pos hidx, setPixel_pix_self]
      · rw [if_neg hidx, if_neg hidx]
    · have hax : a ≠ x := fun h => (List.nodup_cons.mp hnd).1 (h ▸ hmem)
      rw [ih _ hmem (List.nodup_cons.mp hnd).2]
      have hstep : (if y * w + x < data.length then
          q.setPixel x y (data.getD (y * w + x) 0) else q).pix a y = q.pix a y := by
        split
        · exact setPixel_pix_ne _ _ _ _ _ _ (fun hc => hax hc.1)
        · rfl
      rw [hstep]

theorem copyRow_pix (data : List Nat) (w y : Nat) (q : QImageM) (a : Nat) (ha : a < w) :
    (copyRow data w y q).pix a y
      = if y * w + a < data.length then data.getD (y * w + a) 0 else q.pix a y := by
  unfold copyRow
  exact copyRow_foldl_pix_mem data w y (List.range w) q a
    (List.mem_range.mpr ha) (List.nodup_range w)

theorem copyRow_pix_ne_row (data : List Nat) (w y : Nat) (q : QImageM) (a b : Nat)
    (hb : b ≠ y) : (copyRow data w y q).pix a b = q.pix a b := by
  unfold copyRow
  exact copyRow_foldl_pix_not_mem data w y (List.range w) q a b (Or.inr hb)

theorem copyPixels_foldl_pix_not_mem (data : List Nat) (w : Nat) (ys : List Nat)
    (q : QImageM) (a b : Nat) (hb : b ∉ ys) :
    (ys.foldl (fun q y => copyRow data w y q) q).pix a b = q.pix a b := by
  induction ys generalizing q with
  | nil => rfl
  | cons y rest ih =>
    rw [List.foldl_cons]
    rw [ih _ (fun h => hb (List.mem_cons_of_mem _ h))]
    exact copyRow_pix_ne_row data w y q a b (fun h => hb (h ▸ List.mem_cons_self _ _))

theorem copyPixels_foldl_pix_mem (data : List Nat) (w : Nat) (ys : List Nat)
    (q : QImageM) (a b : Nat) (ha : a < w) (hb : b ∈ ys) (hnd : ys.Nodup) :
    (ys.foldl (fun q y => copyRow data w y q) q).pix a b
      = if b * w + a < data.length then data.getD (b * w + a) 0 else q.pix a b := by
  induction ys generalizing q with
  | nil => cases hb
  | cons y rest ih =>
    rw [List.foldl_cons]
    rcases List.mem_cons.mp hb with h | hmem
    · subst h
      rw [copyPixels_foldl_pix_not_mem data w rest _ a b (List.nodup_cons.mp hnd).1]
      exact copyRow_pix data w b q a ha
    · have hby : b ≠ y := fun h => (List.nodup_cons.mp hnd).1 (h ▸ hmem)
      rw [ih _ hmem (List.nodup_cons.mp hnd).2]
      rw [copyRow_pix_ne_row data w y q a b hby]

theorem copyPixels_pix (data : List Nat) (w h : Nat) (q : QImageM) (a b : Nat)
    (ha : a < w) (hb : b < h) :
    (copyPixels data w h q).pix a b
      = if b * w + a < data.length then data.getD (b * w + a) 0 else q.pix a b := by
  unfold copyPixels
  exact copyPixels_foldl_pix_mem data w (List.range h) q a b ha
    (List.mem_range.mpr hb) (List.nodup_range h)

theorem copyRow_width (data : List Nat) (w y : Nat) (q : QImageM) :
    (copyRow data w y q).width = q.width := by
  unfold copyRow
  generalize List.range w = xs
  induction xs generalizing q with
  | nil => rfl
  | cons x rest ih =>
    rw [List.foldl_cons, ih]
    split <;> rfl

theorem copyRow_height (data : List Nat) (w y : Nat) (q : QImageM) :
    (copyRow data w y q).height = q.height := by
  unfold copyRow
  generalize List.range w = xs
  induction xs generalizing q with
  | nil => rfl
  | cons x rest ih =>
    rw [List.foldl_cons, ih]
    split <;> rfl

theorem copyPixels_width (data : List Nat) (w h : Nat) (q : QImageM) :
    (copyPixels data w h q).width = q.width := by
  unfold copyPixels
  generalize List.range h = ys
  induction ys generalizing q with
  | nil => rfl
  | cons y rest ih =>
    rw [List.foldl_cons, ih, copyRow_width]

theorem copyPixels_height (data : List Nat) (w h : Nat) (q : QImageM) :
    (copyPixels data w h q).height = q.height := by
  unfold copyPixels
  generalize List.range h = ys
  induction ys generalizing q with
  | nil => rfl
  | cons y rest ih =>
    rw [List.foldl_cons, ih, copyRow_height]

theorem foldl_append_singleton {α β : Type} (f : α → β) (l : List α) (acc : List β) :
    l.foldl (fun a x => a ++ [f x]) acc = acc ++ l.map f := by
  induction l generalizing acc with
  | nil => simp
  | cons x rest ih =>
    rw [List.foldl_cons, ih, List.map_cons, List.append_assoc]
    rfl

theorem rows_readback (q : QImageM) (data : List Nat)
    (hlen : data.length = q.height * q.width)
    (hpix : ∀ a b : Nat, a < q.width → b < q.height →
      q.pix a b = data.getD (b * q.width + a) 0) :
    ∀ n : Nat, n ≤ q.height →
      (List.range n).foldl
        (fun acc y => acc ++ (List.range q.width).map (fun x => q.pix x y))
        ([] : List Nat)
      = data.take (n * q.width) := by
  intro n
  induction n with
  | zero => intro _; simp
  | succ m ih =>
    intro hn
    rw [List.range_succ m, List.foldl_append, ih (Nat.le_of_succ_le hn)]
    simp only [List.foldl_cons, List.foldl_nil]
    have hwle : (m + 1) * q.width ≤ q.height * q.width :=
      Nat.mul_le_mul_right _ hn
    have hrow : (List.range q.width).map (fun x => q.pix x m)
        = (data.drop (m * q.width)).take q.width := by
      refine List.ext_getElem ?_ ?_
      · simp only [List.length_map, List.length_range, List.length_take,
          List.length_drop, hlen]
        rw [Nat.succ_mul] at hwle
        omega
      · intro i h1 h2
        simp only [List.length_map, List.length_range] at h1
        have hm : m < q.height := Nat.lt_of_succ_le hn
        have hidx : m * q.width + i < data.length := by
          rw [hlen]
          rw [Nat.succ_mul] at hwle
          omega
        simp only [List.getElem_map, List.getElem_range, List.getElem_take,
          List.getElem_drop]
        rw [hpix i m h1 hm, List.getD_eq_getElem data 0 hidx]
    rw [hrow, Nat.succ_mul, List.take_add]

theorem savePixelsList_eq (q : QImageM) (data : List Nat)
    (hlen : data.length = q.height * q.width)
    (hpix : ∀ a b : Nat, a < q.width → b < q.height →
      q.pix a b = data.getD (b * q.width + a) 0) :
    savePixelsList q = data := by
  unfold savePixelsList
  simp only [foldl_append_singleton]
  rw [rows_readback q data hlen hpix q.height (le_refl _)]
  rw [← hlen, List.take_length]

end MIFont


namespace MIFont

/-! Claim theorems. -/

/-- C2: glyph-height inference is a pure function of total pixel height:
2048 ↦ 8 (256 glyphs), 2259 ↦ 9 (251), 3390 ↦ 15 (226), 3584 ↦ 14 (256);
every other height gives `height / 256`, replaced by 8 when that quotient is
non-positive (so 100 ↦ 8); the glyph count is always
`height / charHeight`, and `load_image` stores exactly this inferred
height. -/
theorem charHeight_inference :
    (∀ h : Nat, h ≠ 2048 → h ≠ 2259 → h ≠ 3390 → h ≠ 3584 →
      charHeightFor h = if h / 256 < 1 then 8 else h / 256) ∧
    charHeightFor 2048 = 8 ∧ numCharsFor 2048 = 256 ∧
    charHeightFor 2259 = 9 ∧ numCharsFor 2259 = 251 ∧
    charHeightFor 3390 = 15 ∧ numCharsFor 3390 = 226 ∧
    charHeightFor 3584 = 14 ∧ numCharsFor 3584 = 256 ∧
    charHeightFor 100 = 8 ∧
    (∀ h : Nat, numCharsFor h = h / charHeightFor h) ∧
    (∀ (s : CanvasState) (img : PILImage),
      (loadImage s img).char_height = charHeightFor img.height) := by
  refine ⟨?_, by decide, by decide, by decide, by decide, by decide, by decide,
    by decide, by decide, by decide, fun h => rfl, ?_⟩
  · intro h h1 h2 h3 h4
    simp [charHeightFor, h1, h2, h3, h4]
  · intro s img
    by_cases h : img.mode = PILMode.P <;>
      simp [loadImage, PILImage.convertP, h]

/-- Witness for C2: instantiating the fallback rule at height 500 and
evaluating gives `500 / 256 = 1`. -/
theorem charHeight_inference_witness : charHeightFor 500 = 1 := by
  have h := charHeight_inference.1 500 (by decide) (by decide) (by decide) (by decide)
  simpa using h

/-- C6: `save_image` fails (returns `False`, modelled as `none`, writing no
file) exactly when no image is held or the captured palette attribute is
falsy. -/
theorem save_fails_iff_no_palette (s : CanvasState) :
    saveImage s = none ↔ (s.image = none ∨ palTruthy s.original_palette = false) := by
  obtain ⟨img, pal, z, c, d, ch, hv⟩ := s
  cases img <;> rcases pal with _ | l
  · simp [saveImage, palTruthy]
  · simp [saveImage, palTruthy]
  · simp [saveImage, palTruthy]
  · cases l <;> simp [saveImage, palTruthy]

/-- C7: for non-negative pointer coordinates and positive zoom the
pointer-to-cell mapping is `(px // zoom, py // zoom)` with integer division
truncating toward zero (`Int.tdiv`). -/
theorem pointerToCell_trunc (px py zoom : Int)
    (hx : 0 ≤ px) (hy : 0 ≤ py) (hz : 0 < zoom) :
    pointerToCell (px, py) zoom = (px.tdiv zoom, py.tdiv zoom) := by
  simp [pointerToCell, Int.fdiv_eq_tdiv hx (le_of_lt hz),
    Int.fdiv_eq_tdiv hy (le_of_lt hz)]

/-- Witness for C7: pointer (103, 47) at zoom 20 maps to cell (5, 2). -/
theorem pointerToCell_trunc_witness : pointerToCell (103, 47) 20 = (5, 2) :=
  (pointerToCell_trunc 103 47 20 (by decide) (by decide) (by decide)).trans (by decide)

/-- C9: the UI zoom change clamps the new zoom to `[5, 50]`
(`max(5, min(50, zoom + delta))`) and neither `adjust_zoom` nor `set_zoom`
touches the grid or the palette. -/
theorem zoom_clamped_grid_unchanged (s : CanvasState) (d : Int) :
    (adjust_zoom s d).zoom_level = max 5 (min 50 (s.zoom_level + d)) ∧
    5 ≤ (adjust_zoom s d).zoom_level ∧ (adjust_zoom s d).zoom_level ≤ 50 ∧
    (adjust_zoom s d).image = s.image ∧
    (adjust_zoom s d).original_palette = s.original_palette ∧
    ∀ z : Int, (set_zoom s z).image = s.image ∧
      (set_zoom s z).original_palette = s.original_palette := by
  refine ⟨rfl, le_max_left _ _, ?_, rfl, rfl, fun z => ⟨rfl, rfl⟩⟩
  exact max_le (by norm_num) (min_le_left _ _)

/-- C4: a paint addressing a cell with x outside `[0, width)` or y outside
`[0, height)` leaves the whole state unchanged and emits no signal. -/
theorem draw_out_of_bounds (s : CanvasState) (q : QImageM) (pos : Int × Int)
    (himg : s.image = some q)
    (hout : (pointerToCell pos s.zoom_level).1 < 0 ∨
            (q.width : Int) ≤ (pointerToCell pos s.zoom_level).1 ∨
            (pointerToCell pos s.zoom_level).2 < 0 ∨
            (q.height : Int) ≤ (pointerToCell pos s.zoom_level).2) :
    drawPixel s pos = (s, []) := by
  obtain ⟨img, pal, z, c, d, ch, hv⟩ := s
  cases himg
  simp only [drawPixel]
  rw [if_neg]
  rintro ⟨h1, h2, h3, h4⟩
  simp only at hout
  rcases hout with h | h | h | h <;> omega

/-- Witness for C4: on the demo state (4×4 grid, zoom 20), pointer (100, 0)
maps to cell (5, 0), which is out of bounds, and nothing happens. -/
theorem draw_out_of_bounds_witness : drawPixel demoS (100, 0) = (demoS, []) :=
  draw_out_of_bounds demoS demoQ (100, 0) rfl (Or.inr (Or.inl (by decide)))

end MIFont

namespace MIFont

/-- C1: for every source file successfully decoded (`load_image`, mode `'P'`
with its palette captured and a byte per grid cell) and then encoded
(`save_image`) with no intervening pixel writes, the palette table and the
row-major pixel-index array of the output are identical to those of the
input. -/
theorem decode_encode_roundtrip (img : PILImage) (s : CanvasState)
    (hmode : img.mode = PILMode.P) (hpal : img.palette ≠ [])
    (hlen : img.data.length = img.height * img.width) :
    saveImage (loadImage s img) = some (img.palette, img.data) := by
  unfold loadImage
  rw [if_pos hmode, if_neg (by simp [hmode])]
  set q0 : QImageM := { width := img.width, height := img.height, pix := fun _ _ => 0 } with hq0
  set q : QImageM := copyPixels img.data img.width img.height q0 with hq
  have hw : q.width = img.width := by rw [hq, copyPixels_width, hq0]
  have hh : q.height = img.height := by rw [hq, copyPixels_height, hq0]
  have hlen' : img.data.length = q.height * q.width := by rw [hw, hh, hlen]
  have hpix : ∀ a b : Nat, a < q.width → b < q.height →
      q.pix a b = img.data.getD (b * q.width + a) 0 := by
    intro a b ha hb
    rw [hw] at ha
    rw [hh] at hb
    rw [hq, copyPixels_pix img.data img.width img.height q0 a b ha hb]
    rw [if_pos]
    · rw [hw]
    · rw [hlen]
      have h1 : b * img.width + a < (b + 1) * img.width := by
        rw [Nat.succ_mul]; omega
      have h2 : (b + 1) * img.width ≤ img.height * img.width :=
        Nat.mul_le_mul_right _ hb
      omega
  simp only [saveImage]
  rw [if_neg (by simp [hpal])]
  rw [savePixelsList_eq q img.data hlen' hpix]

/-- Witness for C1: decoding and re-encoding a concrete 2×2 indexed file
reproduces its palette and pixel bytes exactly. -/
theorem decode_encode_roundtrip_witness :
    saveImage (loadImage initState demoImg) = some ([1, 2, 3], [9, 8, 7, 6]) :=
  decode_encode_roundtrip demoImg initState rfl (by decide) rfl

/-- C3 counterexample: a press at a cell followed by a move event that maps to
the same cell emits two paint signals in total, not exactly one — `draw_pixel`
re-emits on every event with no last-cell deduplication (demo state: 4×4 grid,
zoom 20, press and move both at pointer (45, 45), cell (2, 2)). -/
theorem stroke_same_cell_counterexample :
    ((mousePressEvent demoS (45, 45)).2 ++
      (mouseMoveEvent (mousePressEvent demoS (45, 45)).1 (45, 45)).2).length ≠ 1 := by
  decide

/-- C3 amended: during one stroke, every press and every move event while
drawing emits exactly one paint signal for the cell under the pointer —
including a move that maps to the same cell as the press (so press plus
same-cell move emit two signals in total, one each), and a move to a new cell
emits exactly one additional signal, for the new cell only. -/
theorem stroke_one_signal_per_event (s : CanvasState) (q : QImageM) (p0 p1 : Int × Int)
    (himg : s.image = some q)
    (h0 : inBoundsCell q (pointerToCell p0 s.zoom_level))
    (h1 : inBoundsCell q (pointerToCell p1 s.zoom_level)) :
    (mousePressEvent s p0).2 =
      [((pointerToCell p0 s.zoom_level).1, (pointerToCell p0 s.zoom_level).2,
        s.current_color_index)] ∧
    (mouseMoveEvent (mousePressEvent s p0).1 p1).2 =
      [((pointerToCell p1 s.zoom_level).1, (pointerToCell p1 s.zoom_level).2,
        s.current_color_index)] := by
  obtain ⟨img, pal, z, c, d, ch, hv⟩ := s
  cases himg
  obtain ⟨h0a, h0b, h0c, h0d⟩ := h0
  obtain ⟨h1a, h1b, h1c, h1d⟩ := h1
  simp only [mousePressEvent, mouseMoveEvent, drawPixel]
  rw [if_pos ⟨h0a, h0b, h0c, h0d⟩]
  refine ⟨rfl, ?_⟩
  dsimp only
  rw [if_pos rfl]
  rw [if_pos ⟨h1a, h1b, h1c, h1d⟩]

/-- Witness for C3 (amended): press at pointer (45, 45) paints cell (2, 2)
with one signal; a move to pointer (65, 45) emits exactly one more signal, for
cell (3, 2) only. -/
theorem stroke_one_signal_per_event_witness :
    (mousePressEvent demoS (45, 45)).2 = [(2, 2, 1)] ∧
    (mouseMoveEvent (mousePressEvent demoS (45, 45)).1 (65, 45)).2 = [(3, 2, 1)] := by
  have h := stroke_one_signal_per_event demoS demoQ (45, 45) (65, 45) rfl
    (by decide) (by decide)
  exact ⟨h.1.trans (by decide), h.2.trans (by decide)⟩

/-- C5: the captured palette is never altered after load — after any sequence
of paint operations, the palette still held is the one captured at load and
the palette table written by a subsequent save is byte-identical to it. -/
theorem palette_preserved_under_paints (img : PILImage) (s : CanvasState)
    (ps : List (Int × Int)) (hmode : img.mode = PILMode.P) (hpal : img.palette ≠ []) :
    (applyPaints (loadImage s img) ps).original_palette = some img.palette ∧
    (saveImage (applyPaints (loadImage s img) ps)).map Prod.fst = some img.palette := by
  have hload : (loadImage s img).original_palette = some img.palette := by
    simp [loadImage, hmode]
  have hp : (applyPaints (loadImage s img) ps).original_palette = some img.palette :=
    (applyPaints_palette ps (loadImage s img)).trans hload
  refine ⟨hp, ?_⟩
  have hsome : (applyPaints (loadImage s img) ps).image.isSome = true := by
    refine applyPaints_isSome ps (loadImage s img) ?_
    simp [loadImage]
  obtain ⟨q, hq⟩ := Option.isSome_iff_exists.mp hsome
  rw [saveImage_eq_of _ q img.palette hq hp hpal]
  rfl

/-- Witness for C5: after two concrete edits on the loaded 2×2 demo file, the
save output's palette table is still `[1, 2, 3]`. -/
theorem palette_preserved_witness :
    (applyPaints (loadImage initState demoImg) [(0, 0), (21, 1)]).original_palette
      = some [1, 2, 3] ∧
    (saveImage (applyPaints (loadImage initState demoImg) [(0, 0), (21, 1)])).map Prod.fst
      = some [1, 2, 3] :=
  palette_preserved_under_paints demoImg initState [(0, 0), (21, 1)] rfl (by decide)

/-- C8: a paint addressing an in-bounds cell `(x, y)` sets exactly that cell
to the current colour index, leaves every other cell unchanged, emits one
change signal carrying `(x, y, colorIndex)`, and does not touch the
palette. -/
theorem draw_in_bounds (s : CanvasState) (q : QImageM) (c : Nat) (pos : Int × Int)
    (x y : Nat) (himg : s.image = some q)
    (hcell : pointerToCell pos s.zoom_level = ((x : Int), (y : Int)))
    (hx : x < q.width) (hy : y < q.height) :
    (drawPixel (set_color s c) pos).2 = [((x : Int), (y : Int), c)] ∧
    pixAt (drawPixel (set_color s c) pos).1 x y = c ∧
    (∀ a b : Nat, ¬(a = x ∧ b = y) →
      pixAt (drawPixel (set_color s c) pos).1 a b = q.pix a b) ∧
    (drawPixel (set_color s c) pos).1.original_palette = s.original_palette := by
  obtain ⟨img, pal, z, cc, d, ch, hv⟩ := s
  cases himg
  simp only [set_color, drawPixel] at *
  rw [hcell]
  rw [if_pos ?hc]
  case hc =>
    refine ⟨?_, ?_, ?_, ?_⟩
    · show (0 : Int) ≤ (x : Int)
      positivity
    · show ((x : Int)) < ((q.width : Int))
      exact_mod_cast hx
    · show (0 : Int) ≤ (y : Int)
      positivity
    · show ((y : Int)) < ((q.height : Int))
      exact_mod_cast hy
  refine ⟨rfl, ?_, ?_, rfl⟩
  · simp [pixAt, QImageM.setPixel]
  · intro a b hab
    simp only [pixAt]
    rw [setPixel_pix_ne]
    simpa using hab

/-- Witness for C8: painting with colour 1 at pointer (45, 45) on the demo
state sets cell (2, 2), emits exactly `[(2, 2, 1)]`, leaves cell (0, 0) as it
was and keeps the palette. -/
theorem draw_in_bounds_witness :
    (drawPixel (set_color demoS 1) (45, 45)).2 = [(2, 2, 1)] ∧
    pixAt (drawPixel (set_color demoS 1) (45, 45)).1 2 2 = 1 ∧
    pixAt (drawPixel (set_color demoS 1) (45, 45)).1 0 0 = demoQ.pix 0 0 ∧
    (drawPixel (set_color demoS 1) (45, 45)).1.original_palette
      = demoS.original_palette := by
  have h := draw_in_bounds demoS demoQ 1 (45, 45) 2 2 rfl (by decide) (by decide) (by decide)
  exact ⟨h.1.trans (by decide), h.2.1, h.2.2.1 0 0 (by decide), h.2.2.2⟩

/-- C10 counterexample: a document decoded from a non-indexed source CAN be
saved when a palette from an earlier load is still held — `load_image` leaves
`original_palette` unchanged for a non-`'P'` source, so after loading the
indexed demo file and then a non-indexed file, `save_image` succeeds (with the
stale palette). -/
theorem nonindexed_save_counterexample :
    saveImage (loadImage (loadImage initState demoImg) demoRGB) ≠ none := by
  decide

/-- C10 amended: decoding a non-`'P'` source succeeds by converting the image
but captures no palette — `original_palette` is left at its previous value; in
particular, when no palette was ever captured (it is `none`, as on a fresh
editor), it stays `none` and every subsequent `save_image`, after any paints,
fails. -/
theorem nonindexed_load_keeps_palette (img : PILImage) (s : CanvasState)
    (hmode : img.mode ≠ PILMode.P) :
    (loadImage s img).original_palette = s.original_palette ∧
    (loadImage s img).image.isSome = true ∧
    (s.original_palette = none →
      ∀ ps : List (Int × Int), saveImage (applyPaints (loadImage s img) ps) = none) := by
  refine ⟨by simp [loadImage, hmode], by simp [loadImage], ?_⟩
  intro hnone ps
  refine saveImage_none_of_palette_none _ ?_
  rw [applyPaints_palette]
  simp [loadImage, hmode, hnone]

/-- Witness for C10 (amended): loading the non-indexed demo file into a fresh
editor leaves the palette `none`, and a save after an edit fails. -/
theorem nonindexed_load_keeps_palette_witness :
    (loadImage initState demoRGB).original_palette = none ∧
    saveImage (applyPaints (loadImage initState demoRGB) [(0, 0)]) = none := by
  have h := nonindexed_load_keeps_palette demoRGB initState (by decide)
  exact ⟨h.1.trans rfl, h.2.2 rfl [(0, 0)]⟩

end MIFont
